import Mathlib

/-!
# Verification of `Custom-Fetch-API` (`src/custom-fetch.js`)

Shallow embedding of the `CustomFetch` class.  JavaScript strings are
modelled as `List Char` (wrapped in `String` at the API surface),
JavaScript numbers that the code compares/adds are modelled as `Int`
(`Option Int` where `NaN` can arise: `none` plays the role of `NaN`),
and the `Headers` object is modelled as its lookup function
`String → Option String` (`headers.get` returns `null`, i.e. `none`,
for an absent header).  `Date.parse` is an implementation-defined
browser builtin, so it is an explicit parameter `dparse` of the
functions that use it; `NaN` results are `none`.
-/

namespace CustomFetchModel

/-- JS comparison `a < b` with a possibly-`NaN` left operand: `NaN < b` is `false`. -/
def jsLt : Option Int → Int → Bool
  | none, _ => false
  | some a, b => a < b

/-- JS comparison `a > b` with a possibly-`NaN` left operand: `NaN > b` is `false`. -/
def jsGt : Option Int → Int → Bool
  | none, _ => false
  | some a, b => b < a

/-- JS addition where either side may be `NaN` (`none`): `NaN` propagates. -/
def jsAdd : Option Int → Option Int → Option Int
  | some a, some b => some (a + b)
  | _, _ => none

/-- Whitespace characters skipped by JS `parseInt` (ASCII portion). -/
def jsIsSpace (c : Char) : Bool :=
  c = ' ' || c = '\t' || c = '\n' || c = '\r' || c = '\x0b' || c = '\x0c'

/-- Decimal digit value. -/
def decDigit? (c : Char) : Option Nat :=
  if '0' ≤ c ∧ c ≤ '9' then some (c.toNat - '0'.toNat) else none

/-- Hexadecimal digit value. -/
def hexDigit? (c : Char) : Option Nat :=
  if '0' ≤ c ∧ c ≤ '9' then some (c.toNat - '0'.toNat)
  else if 'a' ≤ c ∧ c ≤ 'f' then some (c.toNat - 'a'.toNat + 10)
  else if 'A' ≤ c ∧ c ≤ 'F' then some (c.toNat - 'A'.toNat + 10)
  else none

/-- Longest prefix of digits (w.r.t. `dig?`), accumulated in base `base`.
Returns `none` when no digit at all is present (JS `parseInt` gives `NaN`). -/
def readDigits (dig? : Char → Option Nat) (base : Nat) : List Char → Nat → Bool → Option Nat
  | [], acc, got => if got then some acc else none
  | c :: cs, acc, got =>
    match dig? c with
    | some d => readDigits dig? base cs (acc * base + d) true
    | none => if got then some acc else none

/-- Model of the JS builtin `parseInt(s)` (no explicit radix): skip leading
whitespace, read an optional sign, honour a `0x`/`0X` hex prefix, parse the
longest digit prefix; `NaN` (here `none`) when no digit is found. -/
def jsParseInt (s : String) : Option Int :=
  let l := s.data.dropWhile jsIsSpace
  let (sgn, l) : Int × List Char :=
    match l with
    | '-' :: rest => (-1, rest)
    | '+' :: rest => (1, rest)
    | _ => (1, l)
  match l with
  | '0' :: c :: rest =>
    if c = 'x' ∨ c = 'X' then
      (readDigits hexDigit? 16 rest 0 false).map (fun n => sgn * n)
    else
      (readDigits decDigit? 10 l 0 false).map (fun n => sgn * n)
  | _ => (readDigits decDigit? 10 l 0 false).map (fun n => sgn * n)

/-! ## String scanning primitives (JS `String.prototype` builtins) -/

/-- Test that `pat` occurs at the start of the subject list. -/
def prefAt : List Char → List Char → Bool
  | [], _ => true
  | _ :: _, [] => false
  | c :: cs, d :: ds => c == d && prefAt cs ds

/-- Scan of `rem` (a suffix of the subject string starting at position `j`)
for the first position at which `pat` occurs. -/
def idxAux (pat : List Char) : List Char → Nat → Option Nat
  | rem, j =>
    if prefAt pat rem then some j
    else
      match rem with
      | [] => none
      | _ :: rest => idxAux pat rest (j + 1)

/-- Model of JS `s.indexOf(pat, start)` for `start ≥ 0` (the source only ever
passes non-negative positions): the start position is clamped to the string
length, then the first occurrence at or after it is located. `none` models
the `-1` result. -/
def jsIndexOfFrom (s pat : List Char) (start : Nat) : Option Nat :=
  idxAux pat (s.drop (min start s.length)) (min start s.length)

/-- Model of JS `s.substring(a, b)` (arguments are swapped when `a > b`,
and both are clamped to the string length). -/
def jsSubstring (s : List Char) (a b : Nat) : List Char :=
  (s.take (max a b)).drop (min a b)

/-! ## `getCacheControlDirective` (src/custom-fetch.js lines 152-207) -/

/-- Default of the `maxIterationCount` parameter: `Number.MAX_SAFE_INTEGER`. -/
def jsMaxSafeInteger : Nat := 2 ^ 53 - 1

/-- The `beforeOk` test of the scan loop: the character at `si - 1` is
`undefined` (i.e. `si = 0`) or a space. -/
def beforeOkAt (hs : List Char) (si : Nat) : Bool :=
  si == 0 || hs.get? (si - 1) == some ' '

/-- The `while (true)` scan loop of `getCacheControlDirective`, with the
iteration budget `fuel = maxIterationCount - i` made structural.  The state
is the current `startIndex` (`none` models `-1`) and the `hasEqualSign`
flag; the result is the final `(startIndex, hasEqualSign)` pair at loop
exit.  Branches follow the source line by line:
* `startIndex === -1` breaks;
* `i >= maxIterationCount` breaks;
* a failed look-behind re-searches from `startIndex + 1` and continues;
* a successful look-behind inspects the character after the keyword:
  `=` sets `hasEqualSign` and breaks (switch fall-through), `undefined`
  or `,` breaks, and anything else sets `startIndex = -1` (after which
  the loop exits at its head). -/
def dirLoop (hs kw : List Char) : Nat → Option Nat → Bool → Option Nat × Bool
  | _, none, hasEq => (none, hasEq)
  | 0, some si, hasEq => (some si, hasEq)
  | fuel + 1, some si, hasEq =>
    if beforeOkAt hs si then
      match hs.get? (si + kw.length) with
      | some c =>
        if c = '=' then (some si, true)
        else if c = ',' then (some si, hasEq)
        else (none, hasEq)
      | none => (some si, hasEq)
    else dirLoop hs kw fuel (jsIndexOfFrom hs kw (si + 1)) hasEq

/-- Model of `CustomFetch.getCacheControlDirective(headerStr, targetDir,
maxIterationCount = Number.MAX_SAFE_INTEGER)`.  After the scan loop:
`startIndex === -1` gives `null`; no equal sign returns the directive name
itself; otherwise the value runs from just after the `=` to the next `,`
(or the string end), not trimmed. -/
def getCacheControlDirective (headerStr targetDir : String)
    (maxIterationCount : Nat := jsMaxSafeInteger) : Option String :=
  let hs := headerStr.data
  let kw := targetDir.data
  match dirLoop hs kw maxIterationCount (jsIndexOfFrom hs kw 0) false with
  | (none, _) => none
  | (some si, hasEq) =>
    if hasEq then
      let valueStartIndex := si + kw.length + 1
      let valueEndIndex :=
        match jsIndexOfFrom hs [','] valueStartIndex with
        | none => hs.length
        | some e => e
      some (String.mk (jsSubstring hs valueStartIndex valueEndIndex))
    else some targetDir

/-! ## Headers and freshness policy -/

/-- A `Headers` object, modelled by its `get` lookup
(`headers.get(name)` returns the value, or `null = none`). -/
abbrev Headers : Type := String → Option String

/-- JS truthiness of a `headers.get` result: non-`null` and non-empty. -/
def truthyStr : Option String → Bool
  | none => false
  | some s => s ≠ ""

/-- The `max-age` term of `isCacheExpired`:
`parseInt(getCacheControlDirective(cacheControl, "max-age") || 0) * 1000`.
A `null` (or falsy empty-string) directive yields `parseInt(0) = 0`;
`none` models a `NaN` parse result. -/
def maxAgeMS (cacheControl : String) : Option Int :=
  (match getCacheControlDirective cacheControl "max-age" with
   | none => some 0
   | some s => if s = "" then some 0 else jsParseInt s).map (· * 1000)

/-- Model of `CustomFetch.isCacheExpired(headers, currentDate)`
(src/custom-fetch.js lines 91-111), with the `Date.parse` builtin supplied
as `dparse`.  First, when `Cache-Control` and `Date` are both truthy, the
expire time `Date.parse(date) + maxAgeSeconds` is compared strictly against
`currentDate`; independently, a truthy `Expires` that parses strictly before
`currentDate` also means expired; otherwise the entry is not expired. -/
def isCacheExpired (dparse : String → Option Int) (headers : Headers)
    (currentDate : Int) : Bool :=
  let cacheControl := headers "Cache-Control"
  let date := headers "Date"
  let expires := headers "Expires"
  let firstCheck : Bool :=
    match cacheControl, date with
    | some cc, some d =>
      if truthyStr (some cc) && truthyStr (some d) then
        jsLt (jsAdd (dparse d) (maxAgeMS cc)) currentDate
      else false
    | _, _ => false
  if firstCheck then true
  else
    match expires with
    | some e => truthyStr (some e) && jsLt (dparse e) currentDate
    | none => false

/-- Model of `CustomFetch.checkIfShouldCache(headers, currentDate)`
(src/custom-fetch.js lines 118-135).  When `Cache-Control` is truthy and
carries none of `no-cache`, `no-store`, `max-age=0`, the response is
cacheable; otherwise (including when `Cache-Control` forbids caching!)
control falls through to the `Expires` check: cacheable when `Expires`
is truthy and parses strictly after `currentDate`; else not cacheable. -/
def checkIfShouldCache (dparse : String → Option Int) (headers : Headers)
    (currentDate : Int) : Bool :=
  let cacheControl := headers "Cache-Control"
  let ccBranch : Bool :=
    match cacheControl with
    | some cc =>
      if truthyStr (some cc) then
        getCacheControlDirective cc "no-cache" != some "no-cache" &&
        getCacheControlDirective cc "no-store" != some "no-store" &&
        getCacheControlDirective cc "max-age" != some "0"
      else false
    | none => false
  if ccBranch then true
  else
    match headers "Expires" with
    | some e => truthyStr (some e) && jsGt (dparse e) currentDate
    | none => false

/-! ## Request fingerprint: `JSON.stringify({ resource, options })`

The `options` argument is modelled as a flat string-valued record, i.e. a
list of fields in their (significant) insertion order.  The serializer
models `JSON.stringify` string escaping for `"`, `\`, `\n`, `\r`, `\t`;
other characters are emitted verbatim (real `JSON.stringify` additionally
`\u`-escapes remaining control characters, which only renames their images
and does not affect any equality/injectivity statement proved here). -/

/-- Fetch options: a record of string fields, in insertion order. -/
abbrev Options : Type := List (String × String)

/-- The escape code `JSON.stringify` uses for a character needing escaping. -/
def escCode? (c : Char) : Option Char :=
  if c = '"' then some '"'
  else if c = '\\' then some '\\'
  else if c = '\n' then some 'n'
  else if c = '\r' then some 'r'
  else if c = '\t' then some 't'
  else none

/-- Serialization of one character inside a JSON string literal. -/
def escChar (c : Char) : List Char :=
  match escCode? c with
  | some d => ['\\', d]
  | none => [c]

/-- Serialization of the characters of a JSON string literal body. -/
def escStr : List Char → List Char
  | [] => []
  | c :: cs => escChar c ++ escStr cs

/-- A JSON string literal: `"` body `"`. -/
def strLit (s : String) : List Char :=
  '"' :: escStr s.data ++ ['"']

/-- One `"key":"value"` member of a JSON object literal. -/
def pairLit (kv : String × String) : List Char :=
  strLit kv.1 ++ ':' :: strLit kv.2

/-- The comma-separated members of a JSON object literal. -/
def objEntries : List (String × String) → List Char
  | [] => []
  | [kv] => pairLit kv
  | kv :: rest => pairLit kv ++ ',' :: objEntries rest

/-- A JSON object literal over string-valued fields. -/
def objLit (l : List (String × String)) : List Char :=
  '{' :: objEntries l ++ ['}']

/-- The characters of `JSON.stringify({ resource, options })`. -/
def fingerprintChars (resource : String) (options : Options) : List Char :=
  '{' :: (strLit "resource" ++ ':' :: (strLit resource ++
    ',' :: (strLit "options" ++ ':' :: (objLit options ++ ['}']))))

/-- Model of `JSON.stringify({ resource, options })`, the cache key computed by
`fetch` (src/custom-fetch.js lines 54 and 65): property order is the
object-literal insertion order, `resource` first. -/
def fingerprint (resource : String) (options : Options) : String :=
  String.mk (fingerprintChars resource options)

/-! ## The cache store -/

/-- A stored response snapshot: status, headers, replayable body. -/
structure Response where
  status : Nat
  headers : Headers
  body : String

/-- Model of `CustomFetch.cachedResponses`, a JS `Map` from cache key to `Response`,
modelled as an association list in insertion order (JS `Map` iterates in
insertion order and keeps keys unique). -/
abbrev Store : Type := List (String × Response)

/-- Model of `Map.get`: the value at a key (keys are unique, so the first hit). -/
def storeGet : Store → String → Option Response
  | [], _ => none
  | (k', r') :: rest, k => if k' == k then some r' else storeGet rest k

/-- Model of `Map.set`: overwrite in place when the key is present (preserving its
position), otherwise append. -/
def storeSet : Store → String → Response → Store
  | [], k, r => [(k, r)]
  | (k', r') :: rest, k, r =>
    if k' == k then (k, r) :: rest else (k', r') :: storeSet rest k r

/-- Model of `CustomFetch.cleanup()` (src/custom-fetch.js lines 71-77): iterate the
entries and delete every expired one; deleting the entry under the iterator
while a JS `Map` is being iterated is well-defined and amounts to keeping
exactly the non-expired entries, in order. -/
def cleanup (dparse : String → Option Int) (st : Store) (now : Int) : Store :=
  st.filter (fun p => !isCacheExpired dparse p.2.headers now)

/-- Model of `CustomFetch.clearCache(options)` (src/custom-fetch.js lines 79-81):
the body of the method is empty, so the store is left untouched. -/
def clearCache (st : Store) (_options : Options) : Store := st

/-- Model of `CustomFetch.clearAllCache()` (src/custom-fetch.js lines 82-84):
the body of the method is empty, so the store is left untouched. -/
def clearAllCache (st : Store) : Store := st

/-! ## The fetch facade -/

/-- Outcome of one `CustomFetch.fetch` call, with the resulting store and
the number of times the external transport (the global `fetch`) ran. -/
structure FetchResult where
  result : Except String Response
  store : Store
  transportCalls : Nat

/-- The string a falsy `resource` is printed as inside the rejection
message (`undefined` for an absent argument). -/
def resourceText : Option String → String
  | none => "undefined"
  | some s => s

/-- Model of `CustomFetch.fetch(resource, options)` (src/custom-fetch.js lines
49-69), sequentialized: a falsy `resource` (absent or empty) rejects
immediately; a stored, non-expired `Response` under the key is returned as
a clone (a clone has the same status/headers/body, so cloning is the
identity here) without calling the transport; otherwise the transport runs
and, once resolved, the response is stored under the (recomputed, equal)
key exactly when `checkIfShouldCache` approves; the transport's response
is returned either way. -/
def fetch (dparse : String → Option Int) (transport : String → Options → Response)
    (st : Store) (resource : Option String) (options : Options) (now : Int) :
    FetchResult :=
  let falsy : Bool := match resource with | none => true | some s => s == ""
  if falsy then
    ⟨.error ("(" ++ resourceText resource ++ ") is an invalid resource to fetch."),
      st, 0⟩
  else
    let r := resourceText resource
    let key := fingerprint r options
    match storeGet st key with
    | some value =>
      if !isCacheExpired dparse value.headers now then
        ⟨.ok value, st, 0⟩
      else
        let res := transport r options
        let st' := if checkIfShouldCache dparse res.headers now then
            storeSet st key res else st
        ⟨.ok res, st', 1⟩
    | none =>
      let res := transport r options
      let st' := if checkIfShouldCache dparse res.headers now then
          storeSet st key res else st
      ⟨.ok res, st', 1⟩

/-! ## Sweeper configuration -/

/-- A JS value arriving at the `cleanupCacheIntervalTimeMS` setter:
a non-number, the number `NaN`, or a (finite) number, the latter modelled
as a rational so that fractional and negative intervals are expressible. -/
inductive JSVal where
  | notNum
  | nan
  | num (q : Rat)

/-- The sweeper state: the configured interval
(`CustomFetch.cleanupCacheIntervalTimeMS`) and the identity of the active
timer (`CustomFetch.#cleanupCacheInterval`); replacing the timer yields a
fresh identity. -/
structure SweeperState where
  cleanupCacheIntervalTimeMS : Rat
  timerId : Nat

/-- The `set cleanupCacheIntervalTimeMS(ms)` accessor (src/custom-fetch.js
lines 32-42): a non-number, `NaN`, or a number below `1` is rejected — the
error is only logged (the returned flag) and the state is returned
untouched; a valid number is stored and the timer is atomically replaced
(`#setCleanupCacheInterval` clears the old timer and starts a new one). -/
def setCleanupCacheIntervalTimeMS (st : SweeperState) (ms : JSVal) :
    SweeperState × Bool :=
  match ms with
  | .notNum => (st, true)
  | .nan => (st, true)
  | .num q =>
    if q < 1 then (st, true)
    else (⟨q, st.timerId + 1⟩, false)

/-! ## Specification-side description of the directive scan

`getDirectiveSpec` is the declarative counterpart of
`getCacheControlDirective`, used to state what the scan computes: the
relevant occurrence of the directive name is the *first* occurrence whose
look-behind succeeds (string start or a preceding space); the look-ahead
character at that occurrence then decides between the three outcomes. -/

/-- Position `j` carries an occurrence of `kw` and passes the look-behind. -/
def goodAt (hs kw : List Char) (j : Nat) : Bool :=
  prefAt kw (hs.drop j) && beforeOkAt hs j

/-- The first position (if any) with a look-behind-approved occurrence. -/
def matchIndex (hs kw : List Char) : Option Nat :=
  (List.range (hs.length + 1)).find? (goodAt hs kw)

/-- The declarative description of `getCacheControlDirective` (for the
default, effectively unbounded, iteration cap): absent when no occurrence
passes the look-behind; at the first one that does, `=` after the name
introduces a value running to the next comma or the string end, a comma or
the string end after the name yields the bare name, and any other
character is a definitive non-match. -/
def getDirectiveSpec (headerStr targetDir : String) : Option String :=
  let hs := headerStr.data
  let kw := targetDir.data
  match matchIndex hs kw with
  | none => none
  | some j =>
    match hs.get? (j + kw.length) with
    | some c =>
      if c = '=' then
        some (String.mk ((hs.drop (j + kw.length + 1)).takeWhile (· ≠ ',')))
      else if c = ',' then some targetDir
      else none
    | none => some targetDir

/-! ## Proof-side auxiliary definitions -/

/-- The first look-behind-approved occurrence at or after position `si`. -/
def findGoodFrom (hs kw : List Char) (si : Nat) : Option Nat :=
  (List.range' si (hs.length + 1 - si)).find? (goodAt hs kw)

/-- The exit state of the scan loop as a function of the first
look-behind-approved occurrence (if any): the look-ahead character there
decides between match-with-value, bare match and definitive failure. -/
def loopOutcome (hs kw : List Char) : Option Nat → Bool → Option Nat × Bool
  | none, hasEq => (none, hasEq)
  | some j, hasEq =>
    match hs.get? (j + kw.length) with
    | some c =>
      if c = '=' then (some j, true)
      else if c = ',' then (some j, hasEq)
      else (none, hasEq)
    | none => (some j, hasEq)

/-- Inverse of `escCode?`: the character denoted by a backslash escape. -/
def unescChar (d : Char) : Option Char :=
  if d = '"' then some '"'
  else if d = '\\' then some '\\'
  else if d = 'n' then some '\n'
  else if d = 'r' then some '\r'
  else if d = 't' then some '\t'
  else none

/-- Parser for the body of a serialized JSON string literal (everything
after the opening quote), returning the denoted characters and the input
remaining after the closing quote.  Used to prove the serializer
injective. -/
def parseStrBody : List Char → Option (List Char × List Char)
  | [] => none
  | c :: rest =>
    if c = '"' then some ([], rest)
    else if c = '\\' then
      match rest with
      | [] => none
      | d :: rest' =>
        match unescChar d, parseStrBody rest' with
        | some c', some (s, t) => some (c' :: s, t)
        | _, _ => none
    else
      match parseStrBody rest with
      | some (s, t) => some (c :: s, t)
      | none => none

/-! ## Concrete fixtures used by witnesses and counterexamples -/

/-- A concrete stand-in for `Date.parse`: two known date strings, `NaN`
for everything else. -/
def dpFix : String → Option Int :=
  fun s => if s = "PAST" then some (-50) else if s = "FUT" then some 50 else none

/-- Headers carrying `Cache-Control: no-cache` together with an `Expires`
value that `dpFix` parses to time `50`. -/
def hdrNoCacheFut : Headers :=
  fun n => if n = "Cache-Control" then some "no-cache"
    else if n = "Expires" then some "FUT" else none

/-- Headers of a plainly cacheable response (`Cache-Control: max-age=60`
with a `Date`). -/
def hdrCacheable : Headers :=
  fun n => if n = "Cache-Control" then some "max-age=60"
    else if n = "Date" then some "PAST" else none

/-- Headers of an expired response (`Expires` in the past). -/
def hdrExpired : Headers :=
  fun n => if n = "Expires" then some "PAST" else none

/-- A concrete cacheable response. -/
def resFix : Response := ⟨200, hdrCacheable, "body"⟩

/-- A concrete expired response. -/
def resStale : Response := ⟨200, hdrExpired, "old"⟩

/-- A concrete transport: always answers with `resFix`. -/
def trFix : String → Options → Response := fun _ _ => resFix

/-- A concrete one-entry store. -/
def storeFix : Store := [(fingerprint "https://x" [("method", "GET")], resFix)]

/-- A concrete two-entry store with one fresh and one expired entry. -/
def storeMix : Store :=
  [(fingerprint "https://x" [("method", "GET")], resFix),
   (fingerprint "https://y" [], resStale)]

/-- A concrete sweeper state. -/
def sweepFix : SweeperState := ⟨10000, 0⟩


/-! ## Lemmas and claim theorems -/


theorem prefAt_nil_right {pat : List Char} (h : pat ≠ []) : prefAt pat [] = false := by
  cases pat with
  | nil => exact absurd rfl h
  | cons c cs => rfl

theorem prefAt_length {pat rem : List Char} (h : prefAt pat rem = true) :
    pat.length ≤ rem.length := by
  induction pat generalizing rem with
  | nil => simp
  | cons c cs ih =>
    cases rem with
    | nil => simp [prefAt] at h
    | cons d ds =>
      simp only [prefAt, Bool.and_eq_true] at h
      have := ih h.2
      simp only [List.length_cons]
      omega

theorem idxAux_some {pat rem : List Char} {j k : Nat} (h : idxAux pat rem j = some k) :
    j ≤ k ∧ k - j ≤ rem.length ∧ prefAt pat (rem.drop (k - j)) = true ∧
      ∀ m, m < k - j → prefAt pat (rem.drop m) = false := by
  induction rem generalizing j with
  | nil =>
    rw [idxAux] at h
    by_cases hp : prefAt pat [] = true
    · rw [if_pos hp] at h
      obtain rfl : j = k := by simpa using h
      exact ⟨le_refl _, by simp, by simpa using hp, by omega⟩
    · rw [if_neg hp] at h
      simp at h
  | cons c rest ih =>
    rw [idxAux] at h
    by_cases hp : prefAt pat (c :: rest) = true
    · rw [if_pos hp] at h
      obtain rfl : j = k := by simpa using h
      exact ⟨le_refl _, by simp, by simpa using hp, by omega⟩
    · rw [if_neg hp] at h
      obtain ⟨h1, h2, h3, h4⟩ := ih h
      refine ⟨by omega, by simp only [List.length_cons]; omega, ?_, ?_⟩
      · have he : k - j = (k - (j + 1)) + 1 := by omega
        rw [he, List.drop_succ_cons]
        exact h3
      · intro m hm
        cases m with
        | zero =>
          simpa using hp
        | succ m' =>
          rw [List.drop_succ_cons]
          exact h4 m' (by omega)

theorem idxAux_none {pat rem : List Char} {j : Nat} (h : idxAux pat rem j = none) :
    ∀ m, prefAt pat (rem.drop m) = false := by
  induction rem generalizing j with
  | nil =>
    intro m
    rw [idxAux] at h
    by_cases hp : prefAt pat [] = true
    · rw [if_pos hp] at h; simp at h
    · simpa using hp
  | cons c rest ih =>
    intro m
    rw [idxAux] at h
    by_cases hp : prefAt pat (c :: rest) = true
    · rw [if_pos hp] at h; simp at h
    · rw [if_neg hp] at h
      cases m with
      | zero => simpa using hp
      | succ m' =>
        rw [List.drop_succ_cons]
        exact ih h m'

theorem jsIndexOfFrom_some {hs pat : List Char} {t k : Nat}
    (h : jsIndexOfFrom hs pat t = some k) :
    min t hs.length ≤ k ∧ k ≤ hs.length ∧ prefAt pat (hs.drop k) = true ∧
      ∀ m, min t hs.length ≤ m → m < k → prefAt pat (hs.drop m) = false := by
  rw [jsIndexOfFrom] at h
  obtain ⟨h1, h2, h3, h4⟩ := idxAux_some h
  have hle : min t hs.length ≤ hs.length := Nat.min_le_right _ _
  have hlen : (hs.drop (min t hs.length)).length = hs.length - min t hs.length :=
    List.length_drop _ _
  have hdd : ∀ m, (hs.drop (min t hs.length)).drop m = hs.drop (min t hs.length + m) :=
    fun m => List.drop_drop m _ _
  refine ⟨h1, by omega, ?_, ?_⟩
  · have h3' := h3
    rw [hdd (k - min t hs.length), Nat.add_sub_cancel' h1] at h3'
    exact h3'
  · intro m hm1 hm2
    have := h4 (m - min t hs.length) (by omega)
    rwa [hdd (m - min t hs.length), Nat.add_sub_cancel' hm1] at this

theorem jsIndexOfFrom_none {hs pat : List Char} {t : Nat}
    (h : jsIndexOfFrom hs pat t = none) :
    ∀ m, min t hs.length ≤ m → prefAt pat (hs.drop m) = false := by
  rw [jsIndexOfFrom] at h
  intro m hm
  have := idxAux_none h (m - min t hs.length)
  rwa [List.drop_drop, Nat.add_sub_cancel' hm] at this

theorem findGoodFrom_of_good {hs kw : List Char} {si : Nat} (hle : si ≤ hs.length)
    (hg : goodAt hs kw si = true) : findGoodFrom hs kw si = some si := by
  rw [findGoodFrom]
  obtain ⟨n, hn⟩ : ∃ n, hs.length + 1 - si = n + 1 := ⟨hs.length - si, by omega⟩
  rw [hn]
  have : List.range' si (n + 1) = si :: List.range' (si + 1) n := rfl
  rw [this]
  exact List.find?_cons_of_pos _ hg

theorem findGoodFrom_of_bad {hs kw : List Char} {si : Nat} (hle : si ≤ hs.length)
    (hg : goodAt hs kw si = false) :
    findGoodFrom hs kw si = findGoodFrom hs kw (si + 1) := by
  rw [findGoodFrom, findGoodFrom]
  have h1 : hs.length + 1 - si = (hs.length - si) + 1 := by omega
  have h2 : hs.length + 1 - (si + 1) = hs.length - si := by omega
  rw [h1, h2]
  have h3 : List.range' si ((hs.length - si) + 1) = si :: List.range' (si + 1) (hs.length - si) := rfl
  rw [h3]
  exact List.find?_cons_of_neg _ (by simp [hg])

theorem findGoodFrom_past {hs kw : List Char} {si : Nat} (h : hs.length < si) :
    findGoodFrom hs kw si = none := by
  rw [findGoodFrom]
  have h0 : hs.length + 1 - si = 0 := by omega
  rw [h0]
  rfl

theorem findGoodFrom_congr {hs kw : List Char} {a b : Nat} (hab : a ≤ b)
    (hb : b ≤ hs.length + 1)
    (hbad : ∀ m, a ≤ m → m < b → goodAt hs kw m = false) :
    findGoodFrom hs kw a = findGoodFrom hs kw b := by
  obtain ⟨d, rfl⟩ : ∃ d, b = a + d := ⟨b - a, by omega⟩
  clear hab
  induction d generalizing a with
  | zero => rfl
  | succ d ih =>
    have ha : a ≤ hs.length := by omega
    rw [findGoodFrom_of_bad ha (hbad a le_rfl (by omega))]
    have := ih (a := a + 1) (by omega) (fun m hm1 hm2 => hbad m (by omega) (by omega))
    rwa [show a + 1 + d = a + (d + 1) by omega] at this


theorem idxAux_comma_take {rem : List Char} {j e : Nat}
    (h : idxAux [','] rem j = some e) :
    j ≤ e ∧ rem.take (e - j) = rem.takeWhile (· ≠ ',') := by
  induction rem generalizing j with
  | nil =>
    rw [idxAux] at h
    simp [prefAt] at h
  | cons c rest ih =>
    rw [idxAux] at h
    by_cases hc : c = ','
    · subst hc
      rw [if_pos (by simp [prefAt])] at h
      obtain rfl : j = e := by simpa using h
      refine ⟨le_refl _, ?_⟩
      simp [List.takeWhile_cons]
    · have hp : prefAt [','] (c :: rest) = false := by
        simp only [prefAt, Bool.and_eq_true, beq_iff_eq]
        simp only [Bool.and_eq_false_iff]
        left
        simp [Ne.symm hc]
      rw [if_neg (by simp [hp])] at h
      obtain ⟨h1, h2⟩ := ih h
      refine ⟨by omega, ?_⟩
      have he : e - j = (e - (j + 1)) + 1 := by omega
      rw [he, List.take_succ_cons, List.takeWhile_cons]
      simp [hc, h2]

theorem idxAux_comma_none {rem : List Char} {j : Nat}
    (h : idxAux [','] rem j = none) : rem.takeWhile (· ≠ ',') = rem := by
  induction rem generalizing j with
  | nil => simp
  | cons c rest ih =>
    rw [idxAux] at h
    by_cases hc : c = ','
    · subst hc
      rw [if_pos (by simp [prefAt])] at h
      simp at h
    · have hp : prefAt [','] (c :: rest) = false := by
        simp only [prefAt, Bool.and_eq_false_iff]
        left
        simp [beq_iff_eq, Ne.symm hc]
      rw [if_neg (by simp [hp])] at h
      rw [List.takeWhile_cons, if_pos (by simp [hc]), ih h]

theorem substring_value_none {hs : List Char} {vs : Nat} (hvs : vs ≤ hs.length)
    (hidx : jsIndexOfFrom hs [','] vs = none) :
    jsSubstring hs vs hs.length = (hs.drop vs).takeWhile (· ≠ ',') := by
  rw [jsIndexOfFrom, Nat.min_eq_left hvs] at hidx
  have hw := idxAux_comma_none hidx
  rw [jsSubstring, Nat.max_eq_right hvs, Nat.min_eq_left hvs, List.take_length, hw]

theorem substring_value_some {hs : List Char} {vs e : Nat} (hvs : vs ≤ hs.length)
    (hidx : jsIndexOfFrom hs [','] vs = some e) :
    jsSubstring hs vs e = (hs.drop vs).takeWhile (· ≠ ',') := by
  rw [jsIndexOfFrom, Nat.min_eq_left hvs] at hidx
  obtain ⟨hje, htake⟩ := idxAux_comma_take hidx
  rw [jsSubstring, Nat.max_eq_right hje, Nat.min_eq_left hje, List.drop_take]
  exact htake

theorem dirLoop_eq_loopOutcome {hs kw : List Char} (hkw : kw ≠ []) :
    ∀ (fuel si : Nat) (hasEq : Bool), hs.length - si < fuel → si ≤ hs.length →
      prefAt kw (hs.drop si) = true →
      dirLoop hs kw fuel (some si) hasEq =
        loopOutcome hs kw (findGoodFrom hs kw si) hasEq := by
  intro fuel
  induction fuel with
  | zero =>
    intro si hasEq hf
    omega
  | succ fuel ih =>
    intro si hasEq hf hsi hpre
    rw [dirLoop]
    by_cases hb : beforeOkAt hs si = true
    · rw [if_pos hb]
      have hgood : goodAt hs kw si = true := by simp [goodAt, hpre, hb]
      rw [findGoodFrom_of_good hsi hgood, loopOutcome]
    · rw [if_neg hb]
      have hb' : beforeOkAt hs si = false := by
        cases hq : beforeOkAt hs si
        · rfl
        · exact absurd hq hb
      have hgood : goodAt hs kw si = false := by simp [goodAt, hb']
      rw [findGoodFrom_of_bad hsi hgood]
      rcases hidx : jsIndexOfFrom hs kw (si + 1) with _ | k
      · rw [dirLoop]
        by_cases hsl : si + 1 ≤ hs.length
        · have hmin : min (si + 1) hs.length = si + 1 := Nat.min_eq_left hsl
          have hnone : findGoodFrom hs kw (si + 1) = findGoodFrom hs kw (hs.length + 1) :=
            findGoodFrom_congr (by omega) (by omega) (fun m hm1 hm2 => by
              have hp := jsIndexOfFrom_none hidx m (by omega)
              simp [goodAt, hp])
          rw [hnone, findGoodFrom_past (by omega), loopOutcome]
        · rw [findGoodFrom_past (by omega), loopOutcome]
      · obtain ⟨hk1, hk2, hk3, hk4⟩ := jsIndexOfFrom_some hidx
        have hklen : kw.length ≤ (hs.drop k).length := prefAt_length hk3
        have hkw1 : 0 < kw.length := List.length_pos.2 hkw
        have hdl : (hs.drop k).length = hs.length - k := List.length_drop _ _
        have hkl : k < hs.length := by omega
        have hsik : si + 1 ≤ k := by
          rcases Nat.le_total (si + 1) hs.length with hm | hm
          · have := Nat.min_eq_left hm
            omega
          · have := Nat.min_eq_right hm
            omega
        have hcongr : findGoodFrom hs kw (si + 1) = findGoodFrom hs kw k :=
          findGoodFrom_congr (by omega) (by omega) (fun m hm1 hm2 => by
            have hp : prefAt kw (hs.drop m) = false := hk4 m (by omega) hm2
            simp [goodAt, hp])
        rw [hcongr]
        exact ih k hasEq (by omega) (by omega) hk3


theorem dirLoop_none (hs kw : List Char) (f : Nat) (hq : Bool) :
    dirLoop hs kw f none hq = (none, hq) := by
  cases f <;> rfl

theorem matchIndex_eq_findGoodFrom (hs kw : List Char) :
    matchIndex hs kw = findGoodFrom hs kw 0 := by
  rw [matchIndex, findGoodFrom, List.range_eq_range', Nat.sub_zero]

theorem getDir_eq_spec (headerStr targetDir : String) {cap : Nat}
    (hcap : headerStr.data.length < cap) :
    getCacheControlDirective headerStr targetDir cap = getDirectiveSpec headerStr targetDir := by
  simp only [getCacheControlDirective, getDirectiveSpec]
  rw [matchIndex_eq_findGoodFrom]
  by_cases hkw : targetDir.data = []
  · -- empty directive name: the first index-of result is position 0,
    -- whose look-behind trivially succeeds
    have hidx0 : jsIndexOfFrom headerStr.data targetDir.data 0 = some 0 := by
      rw [hkw, jsIndexOfFrom, idxAux.eq_def]
      simp [prefAt]
    have hfg : findGoodFrom headerStr.data targetDir.data 0 = some 0 :=
      findGoodFrom_of_good (by omega) (by simp [goodAt, hkw, prefAt, beforeOkAt])
    obtain ⟨c, rfl⟩ : ∃ c, cap = c + 1 := ⟨cap - 1, by omega⟩
    rw [hidx0, hfg, dirLoop, if_pos (by simp [beforeOkAt])]
    rcases hget : headerStr.data.get? (0 + targetDir.data.length) with _ | ch
    · simp at hget
      have hni : headerStr.data[targetDir.length]? = none :=
        List.getElem?_eq_none (by simpa using hget)
      simp [hni]
    · by_cases hch : ch = '='
      · subst hch
        obtain ⟨hlt, -⟩ := List.get?_eq_some.1 hget
        have hvs : 0 + targetDir.data.length + 1 ≤ headerStr.data.length := by omega
        rcases hiv : jsIndexOfFrom headerStr.data [','] (0 + targetDir.data.length + 1)
          with _ | e
        · have hsv := substring_value_none hvs hiv
          simp at hget hiv hsv
          simp [hget, hiv, hsv]
        · have hsv := substring_value_some hvs hiv
          simp at hget hiv hsv
          simp [hget, hiv, hsv]
      · by_cases hcc : ch = ','
        · subst hcc
          simp at hget
          simp [hget]
        · simp at hget
          simp [hget, hch, hcc]
  · -- non-empty directive name
    rcases hidx : jsIndexOfFrom headerStr.data targetDir.data 0 with _ | s0
    · have hnone : findGoodFrom headerStr.data targetDir.data 0 = none := by
        have hstep : findGoodFrom headerStr.data targetDir.data 0 =
            findGoodFrom headerStr.data targetDir.data (headerStr.data.length + 1) :=
          findGoodFrom_congr (by omega) (by omega) (fun m hm1 hm2 => by
            have hp := jsIndexOfFrom_none hidx m (by omega)
            simp [goodAt, hp])
        rw [hstep, findGoodFrom_past (by omega)]
      rw [hnone, dirLoop_none]
    · obtain ⟨hs1, hs2, hs3, hs4⟩ := jsIndexOfFrom_some hidx
      have hcongr : findGoodFrom headerStr.data targetDir.data 0 =
          findGoodFrom headerStr.data targetDir.data s0 :=
        findGoodFrom_congr (by omega) (by omega) (fun m hm1 hm2 => by
          have hp := hs4 m (by omega) hm2
          simp [goodAt, hp])
      rw [hcongr, dirLoop_eq_loopOutcome hkw cap s0 false (by omega) hs2 hs3]
      rcases hfg : findGoodFrom headerStr.data targetDir.data s0 with _ | j
      · rw [loopOutcome]
      · rw [loopOutcome]
        rcases hget : headerStr.data.get? (j + targetDir.data.length) with _ | ch
        · simp at hget
          have hni : headerStr.data[j + targetDir.length]? = none :=
            List.getElem?_eq_none (by simpa using hget)
          simp [hni]
        · by_cases hch : ch = '='
          · subst hch
            obtain ⟨hlt, -⟩ := List.get?_eq_some.1 hget
            have hvs : j + targetDir.data.length + 1 ≤ headerStr.data.length := by omega
            rcases hiv : jsIndexOfFrom headerStr.data [','] (j + targetDir.data.length + 1)
              with _ | e
            · have hsv := substring_value_none hvs hiv
              simp at hget hiv hsv
              simp [hget, hiv, hsv]
            · have hsv := substring_value_some hvs hiv
              simp at hget hiv hsv
              simp [hget, hiv, hsv]
          · by_cases hcc : ch = ','
            · subst hcc
              simp at hget
              simp [hget]
            · simp at hget
              simp [hget, hch, hcc]


theorem escCode?_none {c : Char} (h : escCode? c = none) : c ≠ '"' ∧ c ≠ '\\' := by
  rw [escCode?] at h
  split_ifs at h with h1 h2 h3 h4 h5 <;> simp_all

theorem unesc_esc {c d : Char} (h : escCode? c = some d) : unescChar d = some c := by
  rw [escCode?] at h
  split_ifs at h with h1 h2 h3 h4 h5 <;>
    (simp only [Option.some.injEq] at h; subst h; subst_vars; decide)

theorem parseStrBody_quote (rest : List Char) :
    parseStrBody ('"' :: rest) = some ([], rest) := by
  rw [parseStrBody.eq_def]
  rfl

theorem parseStrBody_cons_ord {c : Char} (hq : c ≠ '"') (hb : c ≠ '\\')
    (rest : List Char) :
    parseStrBody (c :: rest) =
      match parseStrBody rest with
      | some (s, t) => some (c :: s, t)
      | none => none := by
  rw [parseStrBody.eq_def]
  simp only []
  rw [if_neg hq, if_neg hb]

theorem parseStrBody_esc (d : Char) (rest' : List Char) :
    parseStrBody ('\\' :: d :: rest') =
      match unescChar d, parseStrBody rest' with
      | some c', some (s, t) => some (c' :: s, t)
      | _, _ => none := by
  rw [parseStrBody.eq_def]
  rfl

theorem parse_escStr (s : List Char) (t : List Char) :
    parseStrBody (escStr s ++ '"' :: t) = some (s, t) := by
  induction s with
  | nil =>
    simp only [escStr, List.nil_append]
    rw [parseStrBody_quote]
  | cons c cs ih =>
    rcases hcode : escCode? c with _ | d
    · obtain ⟨hq, hb⟩ := escCode?_none hcode
      have hesc : escChar c = [c] := by rw [escChar, hcode]
      simp only [escStr, hesc, List.cons_append, List.append_assoc, List.singleton_append,
        List.nil_append]
      rw [parseStrBody_cons_ord hq hb, ih]
    · have hesc : escChar c = ['\\', d] := by rw [escChar, hcode]
      simp only [escStr, hesc, List.cons_append, List.append_assoc, List.singleton_append,
        List.nil_append]
      rw [parseStrBody_esc, unesc_esc hcode, ih]

theorem escStr_quote_inj {s₁ s₂ t₁ t₂ : List Char}
    (h : escStr s₁ ++ '"' :: t₁ = escStr s₂ ++ '"' :: t₂) : s₁ = s₂ ∧ t₁ = t₂ := by
  have r1 := parse_escStr s₁ t₁
  rw [h, parse_escStr s₂ t₂] at r1
  simp only [Option.some.injEq, Prod.mk.injEq] at r1
  exact ⟨r1.1.symm, r1.2.symm⟩

theorem pairLit_append_norm (kv : String × String) (t : List Char) :
    pairLit kv ++ t =
      '"' :: (escStr kv.1.data ++ '"' ::
        (':' :: ('"' :: (escStr kv.2.data ++ '"' :: t)))) := by
  simp [pairLit, strLit, List.append_assoc]

theorem pairLit_inj {kv₁ kv₂ : String × String} {t₁ t₂ : List Char}
    (h : pairLit kv₁ ++ t₁ = pairLit kv₂ ++ t₂) : kv₁ = kv₂ ∧ t₁ = t₂ := by
  obtain ⟨k₁, v₁⟩ := kv₁
  obtain ⟨k₂, v₂⟩ := kv₂
  rw [pairLit_append_norm, pairLit_append_norm] at h
  injection h with hx h
  obtain ⟨hk, h⟩ := escStr_quote_inj h
  injection h with hy h
  injection h with hz h
  obtain ⟨hv, ht⟩ := escStr_quote_inj h
  refine ⟨?_, ht⟩
  simp only [Prod.mk.injEq]
  exact ⟨String.ext hk, String.ext hv⟩

theorem objEntries_inj : ∀ (l₁ l₂ : List (String × String)) {t₁ t₂ : List Char},
    objEntries l₁ ++ '}' :: t₁ = objEntries l₂ ++ '}' :: t₂ → l₁ = l₂ ∧ t₁ = t₂ := by
  intro l₁
  induction l₁ with
  | nil =>
    intro l₂ t₁ t₂ h
    match l₂ with
    | [] =>
      simp only [objEntries, List.nil_append] at h
      injection h with hx h
      exact ⟨rfl, h⟩
    | [kv₂] =>
      exfalso
      simp only [objEntries, List.nil_append] at h
      rw [pairLit_append_norm] at h
      injection h with h hx
      exact absurd h (by decide)
    | kv₂ :: q₂ :: ps₂ =>
      exfalso
      simp only [objEntries, List.nil_append, List.append_assoc, List.cons_append] at h
      rw [pairLit_append_norm] at h
      injection h with h hx
      exact absurd h (by decide)
  | cons kv₁ rest₁ ih =>
    intro l₂ t₁ t₂ h
    match l₂ with
    | [] =>
      exfalso
      match rest₁ with
      | [] =>
        simp only [objEntries, List.nil_append] at h
        rw [pairLit_append_norm] at h
        injection h with h hx
        exact absurd h (by decide)
      | q₁ :: ps₁ =>
        simp only [objEntries, List.nil_append, List.append_assoc, List.cons_append] at h
        rw [pairLit_append_norm] at h
        injection h with h hx
        exact absurd h (by decide)
    | kv₂ :: rest₂ =>
      match rest₁, rest₂ with
      | [], [] =>
        simp only [objEntries] at h
        obtain ⟨hkv, ht⟩ := pairLit_inj h
        injection ht with hx ht
        exact ⟨by rw [hkv], ht⟩
      | [], q₂ :: ps₂ =>
        exfalso
        simp only [objEntries, List.append_assoc, List.cons_append] at h
        obtain ⟨hne, ht⟩ := pairLit_inj h
        injection ht with ht hx
        exact absurd ht (by decide)
      | q₁ :: ps₁, [] =>
        exfalso
        simp only [objEntries, List.append_assoc, List.cons_append] at h
        obtain ⟨hne, ht⟩ := pairLit_inj h
        injection ht with ht hx
        exact absurd ht (by decide)
      | q₁ :: ps₁, q₂ :: ps₂ =>
        simp only [objEntries, List.append_assoc, List.cons_append] at h
        obtain ⟨hkv, ht⟩ := pairLit_inj h
        injection ht with hx ht
        obtain ⟨hl, ht'⟩ := ih (q₂ :: ps₂) ht
        exact ⟨by rw [hkv, hl], ht'⟩

theorem strLit_append_norm (s : String) (t : List Char) :
    strLit s ++ t = '"' :: (escStr s.data ++ '"' :: t) := by
  simp [strLit, List.append_assoc]

theorem fingerprint_inj {r₁ r₂ : String} {o₁ o₂ : Options} :
    fingerprint r₁ o₁ = fingerprint r₂ o₂ ↔ r₁ = r₂ ∧ o₁ = o₂ := by
  constructor
  · intro h
    have hd : fingerprintChars r₁ o₁ = fingerprintChars r₂ o₂ := congrArg String.data h
    simp only [fingerprintChars, objLit, strLit_append_norm, List.cons_append,
      List.append_assoc, List.nil_append, List.singleton_append] at hd
    injection hd with hx0 hd
    injection hd with hx hd
    obtain ⟨hres, hd⟩ := escStr_quote_inj hd
    injection hd with hx1 hd
    injection hd with hx2 hd
    obtain ⟨hr, hd⟩ := escStr_quote_inj hd
    injection hd with hx3 hd
    injection hd with hx4 hd
    obtain ⟨hopt, hd⟩ := escStr_quote_inj hd
    injection hd with hx5 hd
    injection hd with hx6 hd
    obtain ⟨ho, hjunk⟩ := objEntries_inj o₁ o₂ hd
    exact ⟨String.ext hr, ho⟩
  · rintro ⟨rfl, rfl⟩
    rfl


theorem storeGet_storeSet_self (st : Store) (k : String) (r : Response) :
    storeGet (storeSet st k r) k = some r := by
  induction st with
  | nil =>
    rw [storeSet, storeGet]
    simp
  | cons hd tl ih =>
    obtain ⟨k', r'⟩ := hd
    rw [storeSet]
    by_cases hk : (k' == k) = true
    · rw [if_pos hk, storeGet]
      simp
    · rw [if_neg hk, storeGet, if_neg hk]
      exact ih

theorem storeGet_filter {st : Store} {k : String} {r : Response}
    {p : String × Response → Bool}
    (hg : storeGet st k = some r) (hp : p (k, r) = true) :
    storeGet (st.filter p) k = some r := by
  induction st with
  | nil => rw [storeGet] at hg; exact absurd hg (by simp)
  | cons hd tl ih =>
    obtain ⟨k', r'⟩ := hd
    rw [storeGet] at hg
    by_cases hk : (k' == k) = true
    · rw [if_pos hk] at hg
      obtain rfl : r' = r := by simpa using hg
      obtain rfl : k' = k := eq_of_beq hk
      rw [List.filter_cons, if_pos hp, storeGet, if_pos hk]
    · rw [if_neg hk] at hg
      rw [List.filter_cons]
      by_cases hph : p (k', r') = true
      · rw [if_pos hph, storeGet, if_neg hk]
        exact ih hg
      · rw [if_neg hph]
        exact ih hg

theorem shouldCache_iff (dparse : String → Option Int) (h : Headers) (t : Int) :
    checkIfShouldCache dparse h t = true ↔
      ((∃ cc, h "Cache-Control" = some cc ∧ cc ≠ "" ∧
          getCacheControlDirective cc "no-cache" ≠ some "no-cache" ∧
          getCacheControlDirective cc "no-store" ≠ some "no-store" ∧
          getCacheControlDirective cc "max-age" ≠ some "0") ∨
        (∃ e, h "Expires" = some e ∧ e ≠ "" ∧ jsGt (dparse e) t = true)) := by
  rw [checkIfShouldCache]
  rcases hcc : h "Cache-Control" with _ | cc <;>
    rcases hexp : h "Expires" with _ | e <;>
    simp [truthyStr, hcc, hexp] <;>
    by_cases hcce : cc = "" <;>
    simp [hcce] <;>
    tauto

theorem isExpired_iff (dparse : String → Option Int) (h : Headers) (t : Int) :
    isCacheExpired dparse h t = true ↔
      ((∃ cc d, h "Cache-Control" = some cc ∧ cc ≠ "" ∧ h "Date" = some d ∧ d ≠ "" ∧
          jsLt (jsAdd (dparse d) (maxAgeMS cc)) t = true) ∨
        (∃ e, h "Expires" = some e ∧ e ≠ "" ∧ jsLt (dparse e) t = true)) := by
  rw [isCacheExpired]
  rcases hcc : h "Cache-Control" with _ | cc <;>
    rcases hd : h "Date" with _ | d <;>
    rcases hexp : h "Expires" with _ | e <;>
    simp [truthyStr, hcc, hd, hexp] <;>
    try (by_cases hcce : cc = "" <;> by_cases hde : d = "" <;> simp [hcce, hde] <;> tauto)


/-- C1 counterexample: a headers object with `Cache-Control: no-cache` (the
directive present as the whole header) and a future `Expires` makes
`checkIfShouldCache` return `true`, although the claim demands `false`
regardless of other headers. -/
theorem shouldCache_noCache_counterexample :
    hdrNoCacheFut "Cache-Control" = some "no-cache" ∧
    getCacheControlDirective "no-cache" "no-cache" = some "no-cache" ∧
    jsGt (dpFix "FUT") 0 = true ∧
    checkIfShouldCache dpFix hdrNoCacheFut 0 = true := by
  decide

/-- C1 (amended): `checkIfShouldCache` returns `true` iff the `Cache-Control`
header is present, non-empty and carries none of `no-cache`, `no-store`,
`max-age=0`, OR the `Expires` header is present, non-empty and parses
strictly after the reference time; the `Expires` check is a second chance
that also applies when `Cache-Control` forbids caching, not only when it is
absent.  In particular, with neither header present the result is `false`. -/
theorem shouldCache_iff_claim : ∀ (dparse : String → Option Int) (h : Headers) (t : Int),
    checkIfShouldCache dparse h t = true ↔
      ((∃ cc, h "Cache-Control" = some cc ∧ cc ≠ "" ∧
          getCacheControlDirective cc "no-cache" ≠ some "no-cache" ∧
          getCacheControlDirective cc "no-store" ≠ some "no-store" ∧
          getCacheControlDirective cc "max-age" ≠ some "0") ∨
        (∃ e, h "Expires" = some e ∧ e ≠ "" ∧ jsGt (dparse e) t = true)) :=
  shouldCache_iff

/-- C2 counterexample: a comma directly before the directive name (no space)
is rejected by the look-behind, so `getCacheControlDirective` returns `null`
where the claim demands `"0"`. -/
theorem getDirective_comma_counterexample :
    getCacheControlDirective "no-cache,max-age=0" "max-age" = none ∧
    getCacheControlDirective "no-cache,max-age=0" "max-age" ≠ some "0" := by
  decide

/-- C2 (amended): for any iteration cap exceeding the header length (the
default cap qualifies), `getCacheControlDirective` returns exactly what the
declarative description `getDirectiveSpec` prescribes: the first occurrence
of the name whose preceding character is the string start or a space wins
(a directly preceding comma is not an accepted left boundary), and the
character after it decides: `=` introduces the value running to the next
comma or the end, a comma or the string end yields the bare name, anything
else is a definitive non-match. -/
theorem getDirective_matches_spec (header dir : String) (cap : Nat)
    (hcap : header.data.length < cap) :
    getCacheControlDirective header dir cap = getDirectiveSpec header dir :=
  getDir_eq_spec header dir hcap

/-- C2 witness: the amended theorem applied at a concrete header. -/
theorem getDirective_matches_spec_witness :
    ("no-cache, max-age=0".data.length < 100) ∧
    getCacheControlDirective "no-cache, max-age=0" "max-age" 100 =
      getDirectiveSpec "no-cache, max-age=0" "max-age" :=
  ⟨by decide, getDirective_matches_spec "no-cache, max-age=0" "max-age" 100 (by decide)⟩

/-- C3 (confirmed): `isCacheExpired` returns `true` iff `Cache-Control` and
`Date` are both present and non-empty and `Date.parse(Date) + 1000 *
(max-age value, 0 when the directive is absent)` is strictly below the
reference time, OR `Expires` is present, non-empty and parses strictly
below the reference time; the two checks are independent, equality is not
expired (strict `<`), and with no decision the entry is fresh. -/
theorem isExpired_iff_claim : ∀ (dparse : String → Option Int) (h : Headers) (t : Int),
    isCacheExpired dparse h t = true ↔
      ((∃ cc d, h "Cache-Control" = some cc ∧ cc ≠ "" ∧ h "Date" = some d ∧ d ≠ "" ∧
          jsLt (jsAdd (dparse d) (maxAgeMS cc)) t = true) ∨
        (∃ e, h "Expires" = some e ∧ e ≠ "" ∧ jsLt (dparse e) t = true)) :=
  isExpired_iff

/-- C4 counterexample: two option records carrying the same fields in a
different order (semantically identical, field order irrelevant) produce
different fingerprints. -/
theorem fingerprint_order_counterexample :
    fingerprint "r" [("a", "1"), ("b", "2")] ≠ fingerprint "r" [("b", "2"), ("a", "1")] := by
  decide

/-- C4 (amended): the fingerprint is injective on (resource, ordered option
record) pairs — two requests get the same fingerprint iff they have the same
resource and the same option record in the same field order; differing in
any option (or in field order) yields different fingerprints. -/
theorem fingerprint_eq_iff : ∀ (r₁ r₂ : String) (o₁ o₂ : Options),
    fingerprint r₁ o₁ = fingerprint r₂ o₂ ↔ (r₁ = r₂ ∧ o₁ = o₂) :=
  fun _ _ _ _ => fingerprint_inj

/-- C5 (code bug): `clearAllCache` has an empty body, so it leaves every
store unchanged; in particular a non-empty store stays non-empty instead of
being reset to empty as the claim states. -/
theorem clearAllCache_noop :
    (∀ st : Store, clearAllCache st = st) ∧
    clearAllCache storeFix = storeFix ∧ storeFix ≠ [] :=
  ⟨fun _ => rfl, rfl, by simp [storeFix]⟩

/-- C6 (confirmed): storing a cacheable transport response under a key and
immediately fetching the same (resource, options) pair while it is fresh
returns exactly the stored response (same status and headers) with the
store unchanged and zero transport calls. -/
theorem fetch_roundtrip (dparse : String → Option Int)
    (transport : String → Options → Response) (st : Store)
    (r : String) (o : Options) (t₁ t₂ : Int)
    (hr : r ≠ "")
    (hmiss : storeGet st (fingerprint r o) = none)
    (hcache : checkIfShouldCache dparse (transport r o).headers t₁ = true)
    (hfresh : isCacheExpired dparse (transport r o).headers t₂ = false) :
    fetch dparse transport st (some r) o t₁ =
      ⟨.ok (transport r o), storeSet st (fingerprint r o) (transport r o), 1⟩ ∧
    fetch dparse transport (storeSet st (fingerprint r o) (transport r o))
        (some r) o t₂ =
      ⟨.ok (transport r o), storeSet st (fingerprint r o) (transport r o), 0⟩ := by
  have hrb : (r == "") = false := by simp [hr]
  constructor
  · simp only [fetch, hrb, resourceText, Bool.false_eq_true, if_false, hmiss, hcache,
      if_true]
  · simp only [fetch, hrb, resourceText, Bool.false_eq_true, if_false,
      storeGet_storeSet_self, hfresh, Bool.not_false, if_true]

/-- C6 witness: the round-trip theorem at a concrete transport and store. -/
theorem fetch_roundtrip_witness :
    fetch dpFix trFix [] (some "https://x") [] 0 =
      ⟨.ok (trFix "https://x" []), storeSet [] (fingerprint "https://x" [])
        (trFix "https://x" []), 1⟩ ∧
    fetch dpFix trFix (storeSet [] (fingerprint "https://x" []) (trFix "https://x" []))
        (some "https://x") [] 0 =
      ⟨.ok (trFix "https://x" []), storeSet [] (fingerprint "https://x" [])
        (trFix "https://x" []), 0⟩ :=
  fetch_roundtrip dpFix trFix [] "https://x" [] 0 0 (by decide) rfl (by decide) (by decide)

/-- C7 (confirmed): an invalid new interval value (a non-number, `NaN`, or a
number below `1`) is rejected without throwing: the setter returns, the
configured interval and the active timer are unchanged, and the rejection
is only reported as a logged diagnostic (the `true` flag). -/
theorem setInterval_rejects_invalid (st : SweeperState) (ms : JSVal)
    (hinv : ∀ q, ms = JSVal.num q → q < 1) :
    setCleanupCacheIntervalTimeMS st ms = (st, true) := by
  cases ms with
  | notNum => rfl
  | nan => rfl
  | num q => rw [setCleanupCacheIntervalTimeMS, if_pos (hinv q rfl)]

/-- C7 witness: the rejection theorem applied to the `NaN` input. -/
theorem setInterval_rejects_invalid_witness :
    setCleanupCacheIntervalTimeMS sweepFix JSVal.nan = (sweepFix, true) :=
  setInterval_rejects_invalid sweepFix JSVal.nan (fun _ hq => nomatch hq)

/-- C8 (confirmed): an absent (`undefined`) or empty resource makes `fetch`
reject immediately with the invalid-resource error, with the store
unchanged and the transport never invoked. -/
theorem fetch_rejects_invalid_resource : ∀ (dparse : String → Option Int)
    (transport : String → Options → Response) (st : Store) (o : Options) (t : Int),
    fetch dparse transport st none o t =
      ⟨.error "(undefined) is an invalid resource to fetch.", st, 0⟩ ∧
    fetch dparse transport st (some "") o t =
      ⟨.error "() is an invalid resource to fetch.", st, 0⟩ := by
  intro dparse transport st o t
  constructor <;> rfl

/-- C9 (confirmed): `cleanup` keeps every non-expired entry (still reachable
under its key with the same response), never adds entries, and is
idempotent at a fixed reference time. -/
theorem cleanup_removes_only_expired (dparse : String → Option Int) (now : Int)
    (st : Store) :
    (∀ k r, storeGet st k = some r → isCacheExpired dparse r.headers now = false →
      storeGet (cleanup dparse st now) k = some r) ∧
    (∀ k r, (k, r) ∈ cleanup dparse st now → (k, r) ∈ st) ∧
    cleanup dparse (cleanup dparse st now) now = cleanup dparse st now := by
  refine ⟨?_, ?_, ?_⟩
  · intro k r hg hf
    exact storeGet_filter hg (by simp [hf])
  · intro k r hm
    exact (List.mem_filter.1 hm).1
  · rw [cleanup, cleanup, List.filter_filter]
    simp [Bool.and_self]

/-- C9 witness: the cleanup theorem at a concrete mixed store: the fresh
entry survives under its key and cleanup is idempotent there. -/
theorem cleanup_removes_only_expired_witness :
    storeGet (cleanup dpFix storeMix 0) (fingerprint "https://x" [("method", "GET")]) =
      some resFix ∧
    cleanup dpFix (cleanup dpFix storeMix 0) 0 = cleanup dpFix storeMix 0 :=
  ⟨(cleanup_removes_only_expired dpFix 0 storeMix).1 _ resFix rfl (by decide),
    (cleanup_removes_only_expired dpFix 0 storeMix).2.2⟩

/-- C10 (confirmed): the scan of `getCacheControlDirective` stabilizes after
at most `headerStr.length + 1` passes — on each pass the search index either
strictly advances, becomes the not-found sentinel, or the loop breaks — so
any two iteration caps exceeding the header length (in particular the
default `Number.MAX_SAFE_INTEGER`) give the same, total, result. -/
theorem getDirective_cap_stable : ∀ (header dir : String) (c₁ c₂ : Nat),
    header.data.length < c₁ → header.data.length < c₂ →
    getCacheControlDirective header dir c₁ = getCacheControlDirective header dir c₂ := by
  intro h d c₁ c₂ h1 h2
  rw [getDir_eq_spec h d h1, getDir_eq_spec h d h2]

/-- C10 witness: cap stability at the default cap versus a small cap. -/
theorem getDirective_cap_stable_witness :
    ("no-cache, max-age=0".data.length < jsMaxSafeInteger) ∧
    ("no-cache, max-age=0".data.length < 20) ∧
    getCacheControlDirective "no-cache, max-age=0" "max-age" jsMaxSafeInteger =
      getCacheControlDirective "no-cache, max-age=0" "max-age" 20 :=
  ⟨by decide, by decide,
    getDirective_cap_stable "no-cache, max-age=0" "max-age" jsMaxSafeInteger 20
      (by decide) (by decide)⟩


end CustomFetchModel
